import Mathlib

/-!
Verification of the `jctx` package (vendor/github.com/creachadair/jrpc2/jctx/jctx.go):
an encoder and decoder for request context values, allowing context metadata
(a deadline and an opaque metadata value) to be propagated through JSON-RPC.

The embedding models JSON documents semantically (an inductive `Json` type),
Go `time.Time` values as an absolute instant together with a zone offset, and
Go `context.Context` values as an inductive chain of derivations, mirroring
`context.Background`, `context.WithValue` and `context.WithDeadline`.
-/

/-- Semantic model of a JSON document, the values carried by
`encoding/json`'s `json.RawMessage` passthrough. Numbers are modelled as
integers; none of the verified code inspects numeric contents. -/
inductive Json where
  | null : Json
  | bool (b : Bool) : Json
  | num (n : Int) : Json
  | str (s : String) : Json
  | arr (elems : List Json) : Json
  | obj (fields : List (String × Json)) : Json
  deriving Repr

/-- Model of Go `time.Time`: an absolute instant (nanoseconds relative to the
zero time, Jan 1 year 1 UTC) together with the zone offset (seconds east of
UTC) of the location in which the value is expressed. The offset affects only
presentation; comparisons and `IsZero` depend on the instant alone. -/
structure Time where
  instant : Int
  offset : Int
  deriving DecidableEq, Repr

/-- Model of `t.UTC()`: the same instant expressed in UTC (offset zero). -/
def Time.utc (t : Time) : Time := ⟨t.instant, 0⟩

/-- Model of `t.IsZero()`: whether `t` is the zero time instant (Jan 1 year 1 UTC). -/
def Time.isZero (t : Time) : Bool := decide (t.instant = 0)

/-! ### Modelled serialization collaborator: decimal rendering of integers

The wire format stores the deadline as an RFC 3339 string. The spec describes
the serialization collaborator as "timestamp round-tripping to an RFC-3339-like
UTC string"; we model that collaborator by an injective textual rendering of
the `(instant, offset)` pair built from a verified decimal integer codec. -/

/-- The decimal digit character for `d < 10` (`'0'` is code 48). -/
def decChar (d : Nat) : Char := Char.ofNat (48 + d)

/-- The numeric value of a decimal digit character. -/
def decVal (c : Char) : Nat := c.toNat - 48

/-- Whether `c` is a decimal digit character. -/
def isDecDigit (c : Char) : Bool := decide (48 ≤ c.toNat) && decide (c.toNat ≤ 57)

/-- Little-endian decimal digits of `n`, with `fuel` bounding recursion depth. -/
def natCharsAux : Nat → Nat → List Char
  | _, 0 => []
  | 0, _ + 1 => []
  | fuel + 1, n + 1 => decChar ((n + 1) % 10) :: natCharsAux fuel ((n + 1) / 10)

/-- Big-endian decimal rendering of a natural number. -/
def natRepr (n : Nat) : List Char := if n = 0 then ['0'] else (natCharsAux n n).reverse

/-- Value of a little-endian digit-character list. -/
def charsToNatLE : List Char → Nat
  | [] => 0
  | c :: rest => decVal c + 10 * charsToNatLE rest

/-- Parse a big-endian decimal digit string. -/
def parseNat (l : List Char) : Option Nat :=
  if l = [] then none
  else if l.all isDecDigit then some (charsToNatLE l.reverse) else none

/-- Decimal rendering of an integer (minus sign for negatives). -/
def intChars (i : Int) : List Char :=
  if i < 0 then '-' :: natRepr i.natAbs else natRepr i.natAbs

/-- The negative integer with absolute value `n`. -/
def negOf (n : Nat) : Int := -(n : Int)

/-- The nonnegative integer with value `n`. -/
def posOf (n : Nat) : Int := (n : Int)

/-- Parse a decimal integer rendering. -/
def parseIntChars (l : List Char) : Option Int :=
  match l with
  | [] => none
  | c :: rest =>
    if c = '-' then (parseNat rest).map negOf
    else (parseNat (c :: rest)).map posOf

lemma decVal_decChar (d : Nat) (h : d < 10) : decVal (decChar d) = d := by
  interval_cases d <;> rfl

lemma isDecDigit_decChar (d : Nat) (h : d < 10) : isDecDigit (decChar d) = true := by
  interval_cases d <;> rfl

lemma charsToNatLE_natCharsAux :
    ∀ fuel n, n ≤ fuel → charsToNatLE (natCharsAux fuel n) = n := by
  intro fuel
  induction fuel with
  | zero =>
    intro n hn
    have : n = 0 := Nat.le_zero.mp hn
    subst this
    rfl
  | succ fuel ih =>
    intro n hn
    cases n with
    | zero => rfl
    | succ m =>
      have hdiv : (m + 1) / 10 ≤ fuel := by
        have h1 : (m + 1) / 10 < m + 1 := Nat.div_lt_self (by omega) (by omega)
        omega
      have hmod : (m + 1) % 10 < 10 := Nat.mod_lt _ (by omega)
      simp only [natCharsAux, charsToNatLE, ih _ hdiv, decVal_decChar _ hmod]
      omega

lemma mem_natCharsAux_digit :
    ∀ fuel n c, c ∈ natCharsAux fuel n → isDecDigit c = true := by
  intro fuel
  induction fuel with
  | zero =>
    intro n c hc
    cases n <;> simp [natCharsAux] at hc
  | succ fuel ih =>
    intro n c hc
    cases n with
    | zero => simp [natCharsAux] at hc
    | succ m =>
      simp only [natCharsAux, List.mem_cons] at hc
      rcases hc with h | h
      · subst h
        exact isDecDigit_decChar _ (Nat.mod_lt _ (by omega))
      · exact ih _ _ h

lemma natCharsAux_ne_nil (n : Nat) (h : n ≠ 0) : natCharsAux n n ≠ [] := by
  cases n with
  | zero => exact absurd rfl h
  | succ m => simp [natCharsAux]

lemma natRepr_all_digits (n : Nat) : ∀ c ∈ natRepr n, isDecDigit c = true := by
  intro c hc
  unfold natRepr at hc
  split at hc
  · simp only [List.mem_singleton] at hc
    subst hc
    rfl
  · simp only [List.mem_reverse] at hc
    exact mem_natCharsAux_digit _ _ _ hc

lemma natRepr_ne_nil (n : Nat) : natRepr n ≠ [] := by
  unfold natRepr
  split
  · simp
  · simp only [ne_eq, List.reverse_eq_nil_iff]
    apply natCharsAux_ne_nil
    assumption

lemma parseNat_natRepr (n : Nat) : parseNat (natRepr n) = some n := by
  by_cases h : n = 0
  · subst h
    decide
  · have hne := natRepr_ne_nil n
    have hall : (natRepr n).all isDecDigit = true :=
      List.all_eq_true.mpr (natRepr_all_digits n)
    rw [parseNat, if_neg hne, if_pos hall, natRepr, if_neg h, List.reverse_reverse]
    exact congrArg some (charsToNatLE_natCharsAux n n le_rfl)

lemma isDecDigit_ne_dash (c : Char) (h : isDecDigit c = true) : c ≠ '-' := by
  intro e
  subst e
  exact absurd h (by decide)

lemma isDecDigit_ne_amp (c : Char) (h : isDecDigit c = true) : c ≠ '@' := by
  intro e
  subst e
  exact absurd h (by decide)

lemma parseIntChars_intChars (i : Int) : parseIntChars (intChars i) = some i := by
  by_cases h : i < 0
  · rw [intChars, if_pos h]
    show (if ('-' : Char) = '-' then (parseNat (natRepr i.natAbs)).map negOf
      else (parseNat ('-' :: natRepr i.natAbs)).map posOf) = some i
    rw [if_pos rfl, parseNat_natRepr, Option.map_some']
    have hn : negOf i.natAbs = i := by
      unfold negOf
      omega
    rw [hn]
  · rcases hrep : natRepr i.natAbs with _ | ⟨c, rest⟩
    · exact absurd hrep (natRepr_ne_nil _)
    · have hc : isDecDigit c = true := by
        apply natRepr_all_digits i.natAbs
        rw [hrep]
        exact List.mem_cons_self _ _
      rw [intChars, if_neg h, hrep]
      show (if c = '-' then (parseNat rest).map negOf
        else (parseNat (c :: rest)).map posOf) = some i
      rw [if_neg (isDecDigit_ne_dash c hc), ← hrep, parseNat_natRepr, Option.map_some']
      have hn : posOf i.natAbs = i := by
        unfold posOf
        omega
      rw [hn]

lemma intChars_no_amp (i : Int) : ∀ c ∈ intChars i, c ≠ '@' := by
  intro c hc
  by_cases h : i < 0
  · simp only [intChars, if_pos h, List.mem_cons] at hc
    rcases hc with h1 | h1
    · subst h1
      decide
    · exact isDecDigit_ne_amp c (natRepr_all_digits _ c h1)
  · simp only [intChars, if_neg h] at hc
    exact isDecDigit_ne_amp c (natRepr_all_digits _ c hc)

/-- Split a character list at the first `'@'` separator. -/
def splitAmp : List Char → Option (List Char × List Char)
  | [] => none
  | c :: cs =>
    if c = '@' then some ([], cs)
    else (splitAmp cs).map (fun p => (c :: p.1, p.2))

lemma splitAmp_append (l1 l2 : List Char) (h : ∀ c ∈ l1, c ≠ '@') :
    splitAmp (l1 ++ '@' :: l2) = some (l1, l2) := by
  induction l1 with
  | nil => simp [splitAmp]
  | cons c cs ih =>
    have hc : c ≠ '@' := h c (List.mem_cons_self _ _)
    rw [List.cons_append, splitAmp, if_neg hc,
      ih (fun x hx => h x (List.mem_cons_of_mem _ hx)), Option.map_some']

/-- Modelled serialization collaborator (spec section 6): the RFC-3339-like
textual rendering of a timestamp, injective on the instant and zone offset,
as produced by `time.Time.MarshalJSON`. -/
def timeStr (t : Time) : String :=
  String.mk (intChars t.instant ++ '@' :: intChars t.offset)

/-- Modelled serialization collaborator: parsing a timestamp rendering, as
`time.Time.UnmarshalJSON` does for RFC 3339 strings. -/
def parseTime (s : String) : Option Time :=
  match splitAmp s.data with
  | none => none
  | some (a, b) =>
    match parseIntChars a, parseIntChars b with
    | some i, some o => some ⟨i, o⟩
    | _, _ => none

lemma parseTime_timeStr (t : Time) : parseTime (timeStr t) = some t := by
  simp only [parseTime, timeStr, splitAmp_append _ _ (intChars_no_amp t.instant),
    parseIntChars_intChars]

/-! ### Model of `context.Context`

The Go `context` package provides an immutable, hierarchically derived
key/value chain. The `jctx` package uses exactly two derivations:
`context.WithValue(ctx, metadataKey{}, msg)` with `msg : json.RawMessage`
(which may itself be the nil slice, masking inherited metadata), and
`context.WithDeadline(ctx, d)`. We model the chain as an inductive type. -/

/-- Model of a `context.Context` as used by `jctx`: the background context,
a `context.WithValue` derivation on the private `metadataKey{}` slot (carrying
a `json.RawMessage`, where `none` is the nil slice), and a
`context.WithDeadline` derivation. -/
inductive Context where
  | background : Context
  | withValue (parent : Context) (slot : Option Json) : Context
  | withDeadline (parent : Context) (d : Time) : Context

/-- Model of `ctx.Value(metadataKey{})`: walk from leaf to root for the metadata slot.
`none` means the key is absent (a nil interface); `some none` means the slot
holds the nil `json.RawMessage` (masked); `some (some j)` holds bytes `j`. -/
def Context.metaValue : Context → Option (Option Json)
  | .background => none
  | .withValue _ slot => some slot
  | .withDeadline parent _ => parent.metaValue

/-- Model of `ctx.Deadline()`: the effective deadline, if any. `context.WithDeadline`
keeps the parent's deadline when it is already earlier than the new one
(`cur.Before(d)`), so the effective deadline is the minimum along the chain. -/
def Context.deadlineOf : Context → Option Time
  | .background => none
  | .withValue parent _ => parent.deadlineOf
  | .withDeadline parent d =>
    match parent.deadlineOf with
    | some cur => if cur.instant < d.instant then some cur else some d
    | none => some d

/-- Whether no metadata slot was ever attached on the chain (not even the
masking nil one): no `WithValue` derivation occurs between the leaf and root. -/
def Context.neverAttached : Context → Bool
  | .background => true
  | .withValue _ _ => false
  | .withDeadline parent _ => parent.neverAttached

/-! ### The wire envelope -/

/-- The supported wire version, `const wireVersion = "1"`. -/
def wireVersion : String := "1"

/-- Struct `wireContext` is the encoded representation of a context value
(the Go struct of the same name): `V *string`, `Deadline *time.Time`,
`Payload json.RawMessage`, `Metadata json.RawMessage`, where `none` models a
nil pointer or nil raw message. -/
structure wireContext where
  V : Option String
  Deadline : Option Time
  Payload : Option Json
  Metadata : Option Json

/-- A raw wire message (`json.RawMessage`): either empty (or nil), the bytes
of a valid JSON document, or a non-empty byte string that is not valid JSON. -/
inductive RawMsg where
  | empty : RawMsg
  | json (j : Json) : RawMsg
  | malformed (bytes : String) : RawMsg

/-- The raw message holding an optional payload (`c.Payload`): a nil raw
message when absent, otherwise the bytes of the payload document. -/
def rawOfPayload : Option Json → RawMsg
  | none => .empty
  | some j => .json j

/-- Model of `encoding/json` unmarshalling of one object field into the `wireContext`
struct (later duplicate keys overwrite earlier ones, unknown keys are
ignored): `"jctx"` must be a string or null, `"deadline"` must be null or an
RFC 3339 string (a `time.Time` pointer), and `"payload"`/`"meta"` are raw
messages that capture any value verbatim, including an explicit null.
`none` is a type error, which makes the whole `json.Unmarshal` call fail. -/
def applyField (c : wireContext) (f : String × Json) : Option wireContext :=
  if f.1 = "jctx" then
    match f.2 with
    | .null => some { c with V := none }
    | .str s => some { c with V := some s }
    | _ => none
  else if f.1 = "deadline" then
    match f.2 with
    | .null => some { c with Deadline := none }
    | .str s => (parseTime s).map (fun t => { c with Deadline := some t })
    | _ => none
  else if f.1 = "payload" then some { c with Payload := some f.2 }
  else if f.1 = "meta" then some { c with Metadata := some f.2 }
  else some c

/-- Unmarshal a list of object fields into a `wireContext`, left to right. -/
def unmarshalFields : wireContext → List (String × Json) → Option wireContext
  | c, [] => some c
  | c, f :: rest =>
    match applyField c f with
    | none => none
    | some c2 => unmarshalFields c2 rest

/-- Model of `json.Unmarshal(req, &c)` for an object message into the zero
`wireContext`: `none` models a non-nil error. -/
def unmarshalWire (fields : List (String × Json)) : Option wireContext :=
  unmarshalFields ⟨none, none, none, none⟩ fields

/-- Go `%q` quoting of a string, as used by `fmt.Errorf`. -/
def quoteStr (s : String) : String := "\"" ++ s ++ "\""

/-! ### The jctx operations -/

/-- Model of `jctx.Encode(ctx, method, params)`: builds the `wireContext` with
`V = &wireVersion` and `Payload = params`, adds the context deadline
converted to UTC when one is set, attaches the context metadata raw value
when the slot is a non-nil raw message, and marshals the struct. Marshalling
emits the fields in struct order; `deadline`, `payload` and `meta` carry
`omitempty`, so a nil pointer or nil/empty raw message is omitted.
Marshalling a well-formed document never fails, so the model returns the
message directly. -/
def Encode (ctx : Context) (method : String) (params : Option Json) : RawMsg :=
  let deadlineField : List (String × Json) :=
    match ctx.deadlineOf with
    | some dl => [("deadline", Json.str (timeStr dl.utc))]
    | none => []
  let payloadField : List (String × Json) :=
    match params with
    | some p => [("payload", p)]
    | none => []
  let metaField : List (String × Json) :=
    match ctx.metaValue with
    | some (some m) => [("meta", m)]
    | _ => []
  .json (.obj ([("jctx", Json.str wireVersion)] ++ deadlineField ++ payloadField ++ metaField))

/-- Model of `jctx.Decode(ctx, method, req)`: returns the updated context and the
embedded parameters, or the message as-is when it has no context wrapper.
The error side of the `Except` models the `(nil, nil, err)` return. -/
def Decode (ctx : Context) (method : String) (req : RawMsg) :
    Except String (Context × RawMsg) :=
  match req with
  | .empty => .ok (ctx, req)
  | .malformed _ => .ok (ctx, req)
  | .json (.obj fields) =>
    match unmarshalWire fields with
    | none => .ok (ctx, req)
    | some c =>
      match c.V with
      | none => .ok (ctx, req)
      | some ver =>
        if ver = wireVersion then
          let ctx1 : Context :=
            match c.Metadata with
            | some m => .withValue ctx (some m)
            | none => ctx
          let ctx2 : Context :=
            match c.Deadline with
            | some d => if d.isZero then ctx1 else .withDeadline ctx1 d.utc
            | none => ctx1
          .ok (ctx2, rawOfPayload c.Payload)
        else .error ("invalid context version " ++ quoteStr ver)
  | .json _ => .ok (ctx, req)

/-- A Go `interface{}` value handed to `json.Marshal`: either one that
marshals to the JSON document `j`, or one on which marshalling fails with
error `err` (a channel, function, cyclic value, ...). -/
inductive GoValue where
  | jsonable (j : Json) : GoValue
  | unencodable (err : String) : GoValue

/-- Model of `jctx.WithMetadata(ctx, meta)`: attaches the marshalled metadata value to
the context. A nil `meta` attaches the nil raw message explicitly, masking any
inherited metadata. On a marshalling error the original context is returned
together with the error (the second component models the returned `error`). -/
def WithMetadata (ctx : Context) (meta : Option GoValue) : Context × Option String :=
  match meta with
  | none => (.withValue ctx none, none)
  | some (.jsonable j) => (.withValue ctx (some j), none)
  | some (.unencodable err) => (ctx, some err)

/-- The sentinel `jctx.ErrNoMetadata`: "context metadata not present". -/
def ErrNoMetadata : String := "context metadata not present"

/-- Model of `jctx.UnmarshalMetadata(ctx, meta)`: when the context holds a non-nil
metadata raw message, unmarshal it into the caller's same-typed target —
modelled as returning the JSON document the message denotes; otherwise
report `ErrNoMetadata`. -/
def UnmarshalMetadata (ctx : Context) : Except String Json :=
  match ctx.metaValue with
  | some (some msg) => .ok msg
  | _ => .error ErrNoMetadata

/-! ### Helpers used to state the claims -/

/-- Attach an optional metadata document to a context (absent means the
context never carried metadata). -/
def attachMeta (ctx : Context) : Option Json → Context
  | some m => .withValue ctx (some m)
  | none => ctx

/-- Attach an optional deadline to a context. -/
def attachDeadline (ctx : Context) : Option Time → Context
  | some d => .withDeadline ctx d
  | none => ctx

/-- The value of the last occurrence of field `key` in an object field list
(`encoding/json` gives later duplicates precedence). -/
def lookupLast (key : String) : List (String × Json) → Option Json
  | [] => none
  | (k, v) :: rest =>
    match lookupLast key rest with
    | some r => some r
    | none => if k = key then some v else none

/-- The value of field `key` of a wire message, when the message is an
object carrying that field. -/
def fieldVal (key : String) : RawMsg → Option Json
  | .json (.obj fields) => lookupLast key fields
  | _ => none

/-- The classification used by the compatibility fallback: a message that is
empty, does not begin with the object marker, fails to unmarshal as an
envelope, or unmarshals without a version field. -/
def isUnwrapped (req : RawMsg) : Bool :=
  match req with
  | .empty => true
  | .malformed _ => true
  | .json (.obj fields) =>
    match unmarshalWire fields with
    | none => true
    | some c => c.V.isNone
  | .json _ => true

/-- The metadata field Encode emits: present iff the context carries a
non-nil attached metadata raw value. -/
def encodedMeta (ctx : Context) : Option Json :=
  match ctx.metaValue with
  | some (some j) => some j
  | _ => none

/-! ### Supporting lemmas -/

lemma attachMeta_deadlineOf (M : Option Json) :
    (attachMeta Context.background M).deadlineOf = none := by
  cases M <;> rfl

lemma attachMeta_metaValue (M : Option Json) :
    (attachMeta Context.background M).metaValue = M.map some := by
  cases M <;> rfl

lemma unmarshalFields_append (l1 l2 : List (String × Json)) :
    ∀ c, unmarshalFields c (l1 ++ l2)
      = (unmarshalFields c l1).bind (fun c2 => unmarshalFields c2 l2) := by
  induction l1 with
  | nil => intro c; rfl
  | cons f fs ih =>
    intro c
    simp only [List.cons_append, unmarshalFields]
    cases happ : applyField c f with
    | none => rfl
    | some c2 => exact ih c2

lemma applyField_V_of_ne (c c2 : wireContext) (f : String × Json)
    (hk : f.1 ≠ "jctx") (h : applyField c f = some c2) : c2.V = c.V := by
  unfold applyField at h
  rw [if_neg hk] at h
  split at h
  · split at h
    · injection h with h2
      rw [← h2]
    · rcases Option.map_eq_some'.mp h with ⟨t, ht, h2⟩
      rw [← h2]
    · simp at h
  · split at h
    · injection h with h2
      rw [← h2]
    · split at h
      · injection h with h2
        rw [← h2]
      · injection h with h2
        rw [← h2]

lemma unmarshalFields_V_of_no_jctx (post : List (String × Json)) :
    ∀ acc c, (∀ p ∈ post, p.1 ≠ "jctx") → unmarshalFields acc post = some c →
      c.V = acc.V := by
  induction post with
  | nil =>
    intro acc c _ h
    injection h with h2
    rw [← h2]
  | cons f fs ih =>
    intro acc c hn h
    simp only [unmarshalFields] at h
    cases happ : applyField acc f with
    | none =>
      rw [happ] at h
      simp at h
    | some c2 =>
      rw [happ] at h
      have h2 : unmarshalFields c2 fs = some c := h
      have hV := ih c2 c (fun p hp => hn p (List.mem_cons_of_mem _ hp)) h2
      have hV2 := applyField_V_of_ne acc c2 f (hn f (List.mem_cons_self _ _)) happ
      rw [hV, hV2]

lemma applyField_jctx_null (c : wireContext) :
    applyField c ("jctx", Json.null) = some { c with V := none } := rfl

lemma unmarshalFields_deadline_cons (c : wireContext) (s : String) (t : Time)
    (hs : parseTime s = some t) (rest : List (String × Json)) :
    unmarshalFields c (("deadline", Json.str s) :: rest)
      = unmarshalFields { c with Deadline := some t } rest := by
  have happ : applyField c ("deadline", Json.str s)
      = some { c with Deadline := some t } := by
    simp only [applyField]
    rw [if_neg (by decide), if_pos trivial, hs, Option.map_some']
  simp only [unmarshalFields, happ]

lemma decode_encode_core (M P : Option Json) (d : Time) (method : String)
    (hz : d.utc.isZero = false) :
    Decode .background method
        (Encode (attachDeadline (attachMeta .background M) (some d)) method P)
      = .ok (attachDeadline (attachMeta .background M) (some d.utc), rawOfPayload P) := by
  rcases M with _ | m <;> rcases P with _ | p
  · have hw : unmarshalWire
        [("jctx", Json.str wireVersion), ("deadline", Json.str (timeStr d.utc))]
        = some ⟨some wireVersion, some d.utc, none, none⟩ :=
      unmarshalFields_deadline_cons ⟨some wireVersion, none, none, none⟩
        (timeStr d.utc) d.utc (parseTime_timeStr _) []
    rw [show Encode (attachDeadline (attachMeta Context.background none) (some d)) method none
        = RawMsg.json (Json.obj
            [("jctx", Json.str wireVersion), ("deadline", Json.str (timeStr d.utc))]) from rfl]
    simp only [Decode]
    rw [hw]
    show Except.ok
        ((if d.utc.isZero then Context.background
          else Context.withDeadline Context.background d.utc.utc),
         rawOfPayload none)
      = Except.ok (attachDeadline (attachMeta Context.background none) (some d.utc),
         rawOfPayload none)
    rw [hz]
    rfl
  · have hw : unmarshalWire
        [("jctx", Json.str wireVersion), ("deadline", Json.str (timeStr d.utc)),
         ("payload", p)]
        = some ⟨some wireVersion, some d.utc, some p, none⟩ :=
      unmarshalFields_deadline_cons ⟨some wireVersion, none, none, none⟩
        (timeStr d.utc) d.utc (parseTime_timeStr _) [("payload", p)]
    rw [show Encode (attachDeadline (attachMeta Context.background none) (some d)) method (some p)
        = RawMsg.json (Json.obj
            [("jctx", Json.str wireVersion), ("deadline", Json.str (timeStr d.utc)),
             ("payload", p)]) from rfl]
    simp only [Decode]
    rw [hw]
    show Except.ok
        ((if d.utc.isZero then Context.background
          else Context.withDeadline Context.background d.utc.utc),
         rawOfPayload (some p))
      = Except.ok (attachDeadline (attachMeta Context.background none) (some d.utc),
         rawOfPayload (some p))
    rw [hz]
    rfl
  · have hw : unmarshalWire
        [("jctx", Json.str wireVersion), ("deadline", Json.str (timeStr d.utc)),
         ("meta", m)]
        = some ⟨some wireVersion, some d.utc, none, some m⟩ :=
      unmarshalFields_deadline_cons ⟨some wireVersion, none, none, none⟩
        (timeStr d.utc) d.utc (parseTime_timeStr _) [("meta", m)]
    rw [show Encode (attachDeadline (attachMeta Context.background (some m)) (some d)) method none
        = RawMsg.json (Json.obj
            [("jctx", Json.str wireVersion), ("deadline", Json.str (timeStr d.utc)),
             ("meta", m)]) from rfl]
    simp only [Decode]
    rw [hw]
    show Except.ok
        ((if d.utc.isZero then Context.withValue Context.background (some m)
          else Context.withDeadline (Context.withValue Context.background (some m)) d.utc.utc),
         rawOfPayload none)
      = Except.ok (attachDeadline (attachMeta Context.background (some m)) (some d.utc),
         rawOfPayload none)
    rw [hz]
    rfl
  · have hw : unmarshalWire
        [("jctx", Json.str wireVersion), ("deadline", Json.str (timeStr d.utc)),
         ("payload", p), ("meta", m)]
        = some ⟨some wireVersion, some d.utc, some p, some m⟩ :=
      unmarshalFields_deadline_cons ⟨some wireVersion, none, none, none⟩
        (timeStr d.utc) d.utc (parseTime_timeStr _) [("payload", p), ("meta", m)]
    rw [show Encode (attachDeadline (attachMeta Context.background (some m)) (some d)) method (some p)
        = RawMsg.json (Json.obj
            [("jctx", Json.str wireVersion), ("deadline", Json.str (timeStr d.utc)),
             ("payload", p), ("meta", m)]) from rfl]
    simp only [Decode]
    rw [hw]
    show Except.ok
        ((if d.utc.isZero then Context.withValue Context.background (some m)
          else Context.withDeadline (Context.withValue Context.background (some m)) d.utc.utc),
         rawOfPayload (some p))
      = Except.ok (attachDeadline (attachMeta Context.background (some m)) (some d.utc),
         rawOfPayload (some p))
    rw [hz]
    rfl

/-! ### The claims -/

/-- Claim C1 (corrected): for every params `P`, metadata `M` and deadline `D`
whose UTC instant is not the zero time, decoding the encoding of a context
carrying `D` and `M` yields a context whose deadline equals `D` as the same
instant expressed in UTC, whose attached metadata equals `M`, and params equal
to `P`, with no error. (The unamended claim fails when `D` is the zero time
instant: Decode drops a zero deadline.) -/
theorem decode_encode_roundtrip (P M : Option Json) (D : Option Time) (method : String)
    (hD : ∀ d, D = some d → d.instant ≠ 0) :
    Decode .background method (Encode (attachDeadline (attachMeta .background M) D) method P)
      = .ok (attachDeadline (attachMeta .background M) (D.map Time.utc), rawOfPayload P)
    ∧ (attachDeadline (attachMeta .background M) (D.map Time.utc)).deadlineOf = D.map Time.utc
    ∧ (D.map Time.utc).map Time.instant = D.map Time.instant
    ∧ (attachDeadline (attachMeta .background M) (D.map Time.utc)).metaValue = M.map some := by
  rcases D with _ | d
  · refine ⟨?_, ?_, rfl, ?_⟩
    · rcases M with _ | m <;> rcases P with _ | p <;> rfl
    · exact attachMeta_deadlineOf M
    · exact attachMeta_metaValue M
  · have hz : d.utc.isZero = false := by
      simp only [Time.isZero, Time.utc, decide_eq_false_iff_not]
      exact hD d rfl
    refine ⟨decode_encode_core M P d method hz, ?_, rfl, ?_⟩
    · show (Context.withDeadline (attachMeta Context.background M) d.utc).deadlineOf
        = some d.utc
      simp only [Context.deadlineOf, attachMeta_deadlineOf]
    · show (Context.withDeadline (attachMeta Context.background M) d.utc).metaValue
        = M.map some
      simp only [Context.metaValue, attachMeta_metaValue]

/-- Witness for C1 at concrete inputs. -/
theorem decode_encode_roundtrip_witness :
    Decode .background "m"
        (Encode (attachDeadline (attachMeta .background (some (Json.str "x")))
          (some (Time.mk 7 0))) "m" (some (Json.obj [("a", Json.num 1)])))
      = .ok (attachDeadline (attachMeta .background (some (Json.str "x")))
          ((some (Time.mk 7 0)).map Time.utc),
         rawOfPayload (some (Json.obj [("a", Json.num 1)])))
    ∧ (attachDeadline (attachMeta .background (some (Json.str "x")))
        ((some (Time.mk 7 0)).map Time.utc)).deadlineOf = (some (Time.mk 7 0)).map Time.utc
    ∧ ((some (Time.mk 7 0)).map Time.utc).map Time.instant
        = (some (Time.mk 7 0)).map Time.instant
    ∧ (attachDeadline (attachMeta .background (some (Json.str "x")))
        ((some (Time.mk 7 0)).map Time.utc)).metaValue
        = (some (Json.str "x")).map some :=
  decode_encode_roundtrip (some (Json.obj [("a", Json.num 1)])) (some (Json.str "x"))
    (some (Time.mk 7 0)) "m"
    (fun d h => by
      cases h
      decide)

/-- Counterexample for C1 as stated: with the zero-time deadline, the decoded
context has no deadline at all, so it does not equal `D` as an instant. -/
theorem decode_encode_zero_deadline_dropped :
    Decode .background "m"
        (Encode (attachDeadline (attachMeta .background none) (some (Time.mk 0 0))) "m" none)
      = .ok (.background, .empty)
    ∧ Context.deadlineOf .background = none := ⟨rfl, rfl⟩

/-- Claim C2: for every input message that is empty, does not begin with the
object marker, fails to unmarshal as an envelope, or unmarshals without a
version field, Decode returns the input message unchanged together with the
original base context and no error. -/
theorem decode_fallback_unwrapped (ctx : Context) (method : String) (req : RawMsg)
    (h : isUnwrapped req = true) : Decode ctx method req = .ok (ctx, req) := by
  rcases req with _ | j | s
  · rfl
  · cases j with
    | obj fields =>
      simp only [Decode]
      rcases hw : unmarshalWire fields with _ | c
      · rfl
      · simp only [isUnwrapped, hw] at h
        rcases c with ⟨cV, cD, cP, cM⟩
        cases cV with
        | none => rfl
        | some v => simp at h
    | null => rfl
    | bool b => rfl
    | num n => rfl
    | str s2 => rfl
    | arr es => rfl
  · rfl

/-- Witness for C2 at a concrete input (the empty message). -/
theorem decode_fallback_unwrapped_witness :
    Decode .background "m" .empty = .ok (.background, .empty) :=
  decode_fallback_unwrapped .background "m" .empty rfl

/-- Claim C3: for every message that unmarshals as an envelope whose version
field is present but not `"1"`, Decode fails with the version-mismatch error
(the error return models the `(nil, nil, err)` result: no context and no
params are produced). -/
theorem decode_version_mismatch_error (ctx : Context) (method : String)
    (fields : List (String × Json)) (c : wireContext) (ver : String)
    (h1 : unmarshalWire fields = some c) (h2 : c.V = some ver) (h3 : ver ≠ "1") :
    Decode ctx method (.json (.obj fields))
      = .error ("invalid context version " ++ quoteStr ver) := by
  simp only [Decode]
  rw [h1]
  rcases c with ⟨cV, cD, cP, cM⟩
  cases cV with
  | none => cases h2
  | some v =>
    injection h2 with h2
    subst h2
    show (if v = wireVersion then _ else _)
      = Except.error ("invalid context version " ++ quoteStr v)
    rw [if_neg (show ¬(v = wireVersion) from h3)]

/-- Witness for C3 at a concrete input. -/
theorem decode_version_mismatch_error_witness :
    Decode .background "m" (.json (.obj [("jctx", Json.str "99")]))
      = .error ("invalid context version " ++ quoteStr "99") :=
  decode_version_mismatch_error .background "m" [("jctx", Json.str "99")]
    ⟨some "99", none, none, none⟩ "99" rfl rfl (by decide)

/-- Claim C4 (corrected): Encode emits the `meta` field, carrying the attached
raw value verbatim, exactly when the context carries a non-nil attached
metadata value; the field is omitted both when no metadata was ever attached
and when the nil metadata value was attached (masking). (The unamended claim
fails for a masked context: the nil raw message falls under `omitempty`.) -/
theorem encode_meta_field_iff_nonnil (ctx : Context) (method : String)
    (params : Option Json) :
    fieldVal "meta" (Encode ctx method params) = encodedMeta ctx := by
  rcases hm : ctx.metaValue with _ | _ | j <;>
    rcases hd : ctx.deadlineOf with _ | dl <;>
    rcases params with _ | p <;>
    simp only [Encode, encodedMeta, hm, hd] <;>
    rfl

/-- Counterexample for C4 as stated: a context on which the explicitly-nil
metadata value was attached (so metadata was attached, masking included) whose
encoding nevertheless omits the `meta` field. -/
theorem encode_masked_metadata_omitted :
    (Context.withValue Context.background none).metaValue = some none
    ∧ fieldVal "meta"
        (Encode (Context.withValue Context.background none) "m" none) = none :=
  ⟨rfl, rfl⟩

/-- Claim C5: attaching the nil metadata sentinel and then extracting always
fails with the no-metadata error, even when an ancestor context carries real
metadata (masking overrides inheritance). -/
theorem withMetadata_nil_masks (ctx : Context) :
    UnmarshalMetadata (WithMetadata ctx none).1 = .error ErrNoMetadata := rfl

/-- Claim C6: attaching a JSON-serializable value and then extracting into a
same-typed target reproduces an equal value, with no error on either step. -/
theorem withMetadata_unmarshal_roundtrip (ctx : Context) (j : Json) :
    WithMetadata ctx (some (.jsonable j)) = (Context.withValue ctx (some j), none)
    ∧ UnmarshalMetadata (WithMetadata ctx (some (.jsonable j))).1 = .ok j :=
  ⟨rfl, rfl⟩

/-- Claim C7: when serialization of the metadata value fails, WithMetadata
returns the original unmodified context together with the error, and the
metadata slot is unchanged. -/
theorem withMetadata_error_preserves_context (ctx : Context) (err : String) :
    WithMetadata ctx (some (.unencodable err)) = (ctx, some err)
    ∧ (WithMetadata ctx (some (.unencodable err))).1.metaValue = ctx.metaValue :=
  ⟨rfl, rfl⟩

/-- Claim C9: on a context on which no metadata was ever attached (not even
the masking nil value), UnmarshalMetadata fails with `ErrNoMetadata`. -/
theorem unmarshalMetadata_never_attached (ctx : Context)
    (h : ctx.neverAttached = true) :
    UnmarshalMetadata ctx = .error ErrNoMetadata := by
  have hv : ctx.metaValue = none := by
    induction ctx with
    | background => rfl
    | withValue parent slot ih => simp [Context.neverAttached] at h
    | withDeadline parent d ih => exact ih h
  simp only [UnmarshalMetadata, hv]

/-- Witness for C9 at the freshly created background context. -/
theorem unmarshalMetadata_never_attached_witness :
    UnmarshalMetadata .background = .error ErrNoMetadata :=
  unmarshalMetadata_never_attached .background rfl

/-- Claim C8 (corrected): for every deadline expressed in a non-UTC zone whose
instant is not the zero time, Encode converts it to UTC before inclusion, and
Decode of the encoded envelope yields a context whose deadline is an equal
instant expressed in UTC. (The unamended claim fails when the non-UTC deadline
denotes the zero time instant: Decode drops a zero deadline.) -/
theorem encode_decode_utc_normalization (d : Time) (method : String)
    (hoff : d.offset ≠ 0) (hi : d.instant ≠ 0) :
    Decode .background method
        (Encode (Context.withDeadline .background d) method none)
      = .ok (Context.withDeadline .background d.utc, .empty)
    ∧ d.utc.instant = d.instant ∧ d.utc.offset = 0 := by
  have hz : d.utc.isZero = false := by
    simp only [Time.isZero, Time.utc, decide_eq_false_iff_not]
    exact hi
  exact ⟨decode_encode_core none none d method hz, rfl, rfl⟩

/-- Witness for C8 at a concrete deadline at offset +05:00. -/
theorem encode_decode_utc_normalization_witness :
    Decode .background "m"
        (Encode (Context.withDeadline .background (Time.mk 9 18000)) "m" none)
      = .ok (Context.withDeadline .background (Time.mk 9 18000).utc, .empty)
    ∧ (Time.mk 9 18000).utc.instant = (Time.mk 9 18000).instant
    ∧ (Time.mk 9 18000).utc.offset = 0 :=
  encode_decode_utc_normalization (Time.mk 9 18000) "m" (by decide) (by decide)

/-- Counterexample for C8 as stated: a deadline at offset +05:00 whose UTC
instant is the zero time; the decoded context has no deadline, so its deadline
is not an equal instant. -/
theorem encode_decode_zero_instant_nonutc :
    Decode .background "m"
        (Encode (Context.withDeadline .background (Time.mk 0 18000)) "m" none)
      = .ok (.background, .empty)
    ∧ Context.deadlineOf .background = none := ⟨rfl, rfl⟩

/-- Claim C10: for every object message whose version field is present but
explicitly null (the last `jctx` entry carries null, matching the precedence
of duplicate keys), Decode takes the silent compatibility fallback: the input
is returned unchanged with the original context and no error, rather than a
version-mismatch error. -/
theorem decode_null_version_fallback (ctx : Context) (method : String)
    (pre post : List (String × Json)) (hpost : ∀ p ∈ post, p.1 ≠ "jctx") :
    Decode ctx method (.json (.obj (pre ++ ("jctx", Json.null) :: post)))
      = .ok (ctx, .json (.obj (pre ++ ("jctx", Json.null) :: post))) := by
  simp only [Decode]
  rcases hw : unmarshalWire (pre ++ ("jctx", Json.null) :: post) with _ | c
  · rfl
  · have hv : c.V = none := by
      unfold unmarshalWire at hw
      rw [unmarshalFields_append] at hw
      rcases hpre : unmarshalFields ⟨none, none, none, none⟩ pre with _ | accPre
      · rw [hpre] at hw
        simp at hw
      · rw [hpre] at hw
        have hw2 : unmarshalFields { accPre with V := none } post = some c := by
          have hstep : unmarshalFields accPre (("jctx", Json.null) :: post)
              = unmarshalFields { accPre with V := none } post := by
            simp only [unmarshalFields, applyField_jctx_null]
          rw [← hstep]
          exact hw
        have := unmarshalFields_V_of_no_jctx post _ _ hpost hw2
        simpa using this
    rcases c with ⟨cV, cD, cP, cM⟩
    cases cV with
    | none => rfl
    | some v => simp at hv

/-- Witness for C10 at the concrete message with only a null version field. -/
theorem decode_null_version_fallback_witness :
    Decode .background "m" (.json (.obj ([] ++ ("jctx", Json.null) :: [])))
      = .ok (.background, .json (.obj ([] ++ ("jctx", Json.null) :: []))) :=
  decode_null_version_fallback .background "m" [] [] (by simp)
